import Mathlib

/-!
Shallow embedding of townsendjs/dataToVideo (`app.py` and
`glitch_hub/tomato_gui.py`): the byte-to-frame encoder, the pixel scaler,
the resolution / fps configuration model, and the drag-and-drop path
parsers, together with theorems about them.

Bytes are modelled as natural numbers (their values are unconstrained; the
properties in question concern positions and zero padding, not byte range).
A numpy `(height, width, 3)` uint8 array in C order is modelled as its flat
byte list together with the accessor `framePixel`, which reads position
`row * (width*3) + col * 3 + channel` exactly as `reshape` lays bytes out.
-/

namespace DataToVideo

/-- One padded chunk per loop iteration of `bytes_to_frames` in `app.py`:
`for offset in range(0, len(data), frame_size)` takes
`data[offset : offset+frame_size]` and right-pads it with zero bytes up to
`frame_size`.  (With `frame_size = 0` the Python `range` raises; we return
`[]` in that unreachable branch to stay total.) -/
def chunkPad (fs : ℕ) (data : List ℕ) : List (List ℕ) :=
  if h : data = [] ∨ fs = 0 then []
  else
    (data.take fs ++ List.replicate (fs - (data.take fs).length) 0) ::
      chunkPad fs (data.drop fs)
termination_by data.length
decreasing_by
  push_neg at h
  simp only [List.length_drop]
  exact Nat.sub_lt (List.length_pos.mpr h.1) (Nat.pos_of_ne_zero h.2)

/-- `bytes_to_frames(data, width, height)` from `app.py`: chunk the payload
into `width*height*3`-byte frames, zero-padding the last chunk, and if no
frame was produced append one all-zero frame. -/
def bytes_to_frames (data : List ℕ) (width height : ℕ) : List (List ℕ) :=
  let fs := width * height * 3
  let frames := chunkPad fs data
  if frames = [] then [List.replicate fs 0] else frames

/-- Byte of a flat frame at `(row, col, channel)` in the numpy
`(height, width, 3)` C-order layout (out-of-range reads give 0). -/
def framePixel (frame : List ℕ) (width r c ch : ℕ) : ℕ :=
  frame.getD (r * (width * 3) + c * 3 + ch) 0

/-- `np.repeat(np.repeat(frame, s, axis=0), s, axis=1)` from
`convert_file_to_video` in `app.py`: the enlarged frame is the
`(height*s, width*s, 3)` array whose pixel `(r, c)` is source pixel
`(r / s, c / s)`, flattened in C order. -/
def scaleFrame (frame : List ℕ) (width height s : ℕ) : List ℕ :=
  (List.range (height * s * (width * s * 3))).map fun idx =>
    framePixel frame width (idx / (width * s * 3) / s)
      (idx % (width * s * 3) / 3 / s) (idx % 3)

/-- The `if pixel_scale > 1` guard of `convert_file_to_video`: frames are
enlarged only for a factor strictly greater than 1; factor 1 leaves the
frame list untouched. -/
def applyPixelScale (frames : List (List ℕ)) (width height s : ℕ) :
    List (List ℕ) :=
  if 1 < s then frames.map fun f => scaleFrame f width height s else frames

/-- The `ASPECT_RATIOS` table of `app.py`; `.get(aspect, (1, 1))` falls
back to 1:1 for unknown names, so the lookup is total. -/
def aspectRatios (name : String) : ℕ × ℕ :=
  if name = "1:1" then (1, 1)
  else if name = "4:3" then (4, 3)
  else if name = "16:9" then (16, 9)
  else if name = "9:16" then (9, 16)
  else (1, 1)

/-- Python's built-in `round`: round half to even.  `_current_resolution`
evaluates `base_width * (height_ratio / width_ratio)` in floating point;
over the fixed ratio table and the menu of base widths the float result
rounds to the same integer as the exact rational value (no value lies near
a rounding boundary), so the embedding computes with exact rationals. -/
def pyRound (q : ℚ) : ℤ :=
  if q - ⌊q⌋ < 1 / 2 then ⌊q⌋
  else if 1 / 2 < q - ⌊q⌋ then ⌊q⌋ + 1
  else if 2 ∣ ⌊q⌋ then ⌊q⌋ else ⌊q⌋ + 1

/-- `DataToVideoApp._current_resolution` from `app.py`: look up the ratio
pair for the selected name and return
`(base_width, max(1, int(round(base_width * (height_ratio / width_ratio)))))`. -/
def current_resolution (aspect : String) (baseWidth : ℕ) : ℕ × ℕ :=
  let wr := (aspectRatios aspect).1
  let hr := (aspectRatios aspect).2
  (baseWidth, max 1 (pyRound ((baseWidth : ℚ) * ((hr : ℚ) / (wr : ℚ)))).toNat)

/-- The module constant `FPS = 1` of `app.py`. -/
def FPS : ℚ := 1

/-- `DataToVideoApp._current_fps` from `app.py`.  The call
`float(self.fps_var.get())` is modelled by its outcome: `some v` when the
configured string parses as the number `v`, `none` when parsing raises
`ValueError`.  The code returns `max(0.01, v)` on success and the default
`FPS` on a parse failure. -/
def current_fps (parsed : Option ℚ) : ℚ :=
  match parsed with
  | some v => max (1 / 100) v
  | none => FPS

/-- The duration estimate of `_update_duration_hint` in `app.py`:
`frames / fps` seconds. -/
def estimatedSeconds (frames : ℕ) (fps : ℚ) : ℚ := (frames : ℚ) / fps

/-- Python `str.strip()` whitespace test, restricted to the ASCII
whitespace characters (space, tab, newline, carriage return, vertical tab,
form feed). -/
def pyIsSpace (c : Char) : Bool :=
  c = ' ' || c = '\t' || c = '\n' || c = '\r' || c = '\x0b' || c = '\x0c'

/-- Python `str.strip()`: remove leading and trailing whitespace. -/
def pyStrip (l : List Char) : List Char :=
  ((l.dropWhile pyIsSpace).reverse.dropWhile pyIsSpace).reverse

/-- One character step of the token loop in `DataToVideoApp._on_drop`
(`app.py`).  The state is `(paths, current, in_brace)`: an opening brace
enters brace mode and resets `current`; a closing brace leaves brace mode
and flushes a non-empty `current`; a space outside braces flushes a
non-empty `current`; every other character (and a space inside braces) is
appended to `current`. -/
def appDropStep (st : List (List Char) × List Char × Bool) (ch : Char) :
    List (List Char) × List Char × Bool :=
  if ch = '\x7b' then (st.1, [], true)
  else if ch = '\x7d' then
    (if st.2.1 = [] then st.1 else st.1 ++ [st.2.1], [], false)
  else if ch = ' ' ∧ st.2.2 = false then
    (if st.2.1 = [] then st.1 else st.1 ++ [st.2.1], [], false)
  else (st.1, st.2.1 ++ [ch], st.2.2)

/-- The token list computed by `_on_drop` in `app.py`: run the character
loop over the stripped event string, then flush a non-empty trailing
`current`. -/
def appOnDropTokens (raw : List Char) : List (List Char) :=
  let st := (pyStrip raw).foldl appDropStep ([], [], false)
  st.1 ++ (if st.2.1 = [] then [] else [st.2.1])

/-- The selection effect of `_on_drop` in `app.py`:
`first_path = paths[0] if paths else ""`, and only a non-empty
`first_path` replaces the current selection (the remaining tokens are
ignored; otherwise the handler leaves the selection unchanged). -/
def appOnDropSelect (oldSel : Option (List Char)) (raw : List Char) :
    Option (List Char) :=
  let firstPath := (appOnDropTokens raw).headD []
  if firstPath = [] then oldSel else some firstPath

/-- One character step of `_parse_drop_paths` in
`glitch_hub/tomato_gui.py` — the same loop body as in `_on_drop`,
embedded separately so the two duplicated parsers can be compared. -/
def tomatoDropStep (st : List (List Char) × List Char × Bool) (ch : Char) :
    List (List Char) × List Char × Bool :=
  if ch = '\x7b' then (st.1, [], true)
  else if ch = '\x7d' then
    (if st.2.1 = [] then st.1 else st.1 ++ [st.2.1], [], false)
  else if ch = ' ' ∧ st.2.2 = false then
    (if st.2.1 = [] then st.1 else st.1 ++ [st.2.1], [], false)
  else (st.1, st.2.1 ++ [ch], st.2.2)

/-- `_parse_drop_paths(raw_path)` from `glitch_hub/tomato_gui.py`. -/
def parse_drop_paths (raw : List Char) : List (List Char) :=
  let st := (pyStrip raw).foldl tomatoDropStep ([], [], false)
  st.1 ++ (if st.2.1 = [] then [] else [st.2.1])

/-- A token of the drag-and-drop path grammar: a bare path (no spaces) or
a brace-wrapped path which may contain spaces. -/
inductive DropToken : Type
  | plain : List Char → DropToken
  | braced : List Char → DropToken

/-- The path text a grammar token denotes. -/
def tokenContent : DropToken → List Char
  | DropToken.plain s => s
  | DropToken.braced s => s

/-- The concrete text of one grammar token. -/
def renderToken : DropToken → List Char
  | DropToken.plain s => s
  | DropToken.braced s => '\x7b' :: s ++ ['\x7d']

/-- A concrete drop string: token texts separated by single spaces. -/
def renderTokens : List DropToken → List Char
  | [] => []
  | [t] => renderToken t
  | t :: t2 :: ts => renderToken t ++ ' ' :: renderTokens (t2 :: ts)

/-- Well-formedness of a grammar token: non-empty content with no brace
characters; a bare token contains no whitespace at all, a braced token may
contain spaces but no other whitespace. -/
def goodToken : DropToken → Prop
  | DropToken.plain s =>
      s ≠ [] ∧ ∀ c ∈ s, c ≠ '\x7b' ∧ c ≠ '\x7d' ∧ pyIsSpace c = false
  | DropToken.braced s =>
      s ≠ [] ∧ ∀ c ∈ s, c ≠ '\x7b' ∧ c ≠ '\x7d' ∧ (c = ' ' ∨ pyIsSpace c = false)

lemma chunkPad_nil (fs : ℕ) : chunkPad fs [] = [] := by
  rw [chunkPad]
  simp

lemma chunkPad_eq_cons (fs : ℕ) (data : List ℕ) (hd : data ≠ []) (hfs : fs ≠ 0) :
    chunkPad fs data =
      (data.take fs ++ List.replicate (fs - (data.take fs).length) 0) ::
        chunkPad fs (data.drop fs) := by
  rw [chunkPad]
  simp [hd, hfs]

lemma chunkPad_length_aux (fs : ℕ) (hfs : 0 < fs) :
    ∀ (n : ℕ) (data : List ℕ), data.length ≤ n → data ≠ [] →
      (chunkPad fs data).length = (data.length - 1) / fs + 1 := by
  intro n
  induction n with
  | zero =>
    intro data hle hne
    exact absurd (List.eq_nil_of_length_eq_zero (Nat.le_zero.mp hle)) hne
  | succ n ih =>
    intro data hle hne
    rw [chunkPad_eq_cons fs data hne hfs.ne']
    by_cases hdrop : data.drop fs = []
    · have hlen : data.length ≤ fs := List.drop_eq_nil_iff_le.mp hdrop
      have hpos : 0 < data.length := List.length_pos.mpr hne
      rw [hdrop, chunkPad_nil]
      simp only [List.length_cons, List.length_nil]
      rw [Nat.div_eq_of_lt (by omega)]
    · have hfl : fs < data.length := by
        by_contra hcon
        push_neg at hcon
        exact hdrop (List.drop_eq_nil_iff_le.mpr hcon)
      have ihd := ih (data.drop fs)
        (by rw [List.length_drop]; omega) hdrop
      rw [List.length_cons, ihd, List.length_drop]
      have hsplit : data.length - 1 = (data.length - fs - 1) + fs := by omega
      rw [hsplit, Nat.add_div_right _ hfs]

lemma chunkPad_length (fs : ℕ) (data : List ℕ) (hfs : 0 < fs) (hd : data ≠ []) :
    (chunkPad fs data).length = (data.length - 1) / fs + 1 :=
  chunkPad_length_aux fs hfs data.length data le_rfl hd

lemma chunkPad_getD_aux (fs : ℕ) (hfs : 0 < fs) :
    ∀ (n : ℕ) (data : List ℕ), data.length ≤ n → ∀ i b, b < fs →
      ((chunkPad fs data).getD i []).getD b 0 = data.getD (i * fs + b) 0 := by
  intro n
  induction n with
  | zero =>
    intro data hle i b hb
    have hdata : data = [] := List.eq_nil_of_length_eq_zero (Nat.le_zero.mp hle)
    subst hdata
    rw [chunkPad_nil]
    cases i <;> simp [List.getD]
  | succ n ih =>
    intro data hle i b hb
    by_cases hne : data = []
    · subst hne
      rw [chunkPad_nil]
      cases i <;> simp [List.getD]
    · rw [chunkPad_eq_cons fs data hne hfs.ne']
      cases i with
      | zero =>
        simp only [List.getD_cons_zero, Nat.zero_mul, Nat.zero_add]
        rw [List.getD_eq_getElem?_getD, List.getD_eq_getElem?_getD,
          List.getElem?_append]
        by_cases hlt : b < (data.take fs).length
        · rw [if_pos hlt, List.getElem?_take, if_pos hb]
        · rw [if_neg hlt]
          push_neg at hlt
          have hblen : data.length ≤ b := by
            rw [List.length_take] at hlt
            omega
          rw [List.getElem?_replicate,
            if_pos (by rw [List.length_take]; omega),
            List.getElem?_eq_none hblen]
          rfl
      | succ i =>
        simp only [List.getD_cons_succ]
        rw [ih (data.drop fs) (by rw [List.length_drop]; omega) i b hb,
          List.getD_eq_getElem?_getD, List.getD_eq_getElem?_getD,
          List.getElem?_drop]
        congr 1
        ring_nf

lemma chunkPad_getD (fs : ℕ) (data : List ℕ) (hfs : 0 < fs) (i b : ℕ) (hb : b < fs) :
    ((chunkPad fs data).getD i []).getD b 0 = data.getD (i * fs + b) 0 :=
  chunkPad_getD_aux fs hfs data.length data le_rfl i b hb

lemma chunkPad_getLast?_aux (fs : ℕ) (hfs : 0 < fs) :
    ∀ (n : ℕ) (data : List ℕ), data.length ≤ n → data.length % fs ≠ 0 →
      (chunkPad fs data).getLast? =
        some (data.drop (data.length - data.length % fs) ++
          List.replicate (fs - data.length % fs) 0) := by
  intro n
  induction n with
  | zero =>
    intro data hle hr
    have hdata : data = [] := List.eq_nil_of_length_eq_zero (Nat.le_zero.mp hle)
    subst hdata
    simp at hr
  | succ n ih =>
    intro data hle hr
    have hne : data ≠ [] := by
      intro hcon
      subst hcon
      simp at hr
    rw [chunkPad_eq_cons fs data hne hfs.ne']
    by_cases hdrop : data.drop fs = []
    · have hlen : data.length ≤ fs := List.drop_eq_nil_iff_le.mp hdrop
      have hlt : data.length < fs := by
        rcases Nat.lt_or_ge data.length fs with h | h
        · exact h
        · have heq : data.length = fs := le_antisymm hlen h
          rw [heq, Nat.mod_self] at hr
          exact absurd rfl hr
      have hmod : data.length % fs = data.length := Nat.mod_eq_of_lt hlt
      rw [hdrop, chunkPad_nil]
      simp only [List.getLast?_singleton, hmod, Nat.sub_self, List.drop_zero,
        List.take_of_length_le hlen, List.length_take,
        Nat.min_eq_right hlen]
    · have hfl : fs < data.length := by
        by_contra hcon
        push_neg at hcon
        exact hdrop (List.drop_eq_nil_iff_le.mpr hcon)
      have hmodd : (data.drop fs).length % fs = data.length % fs := by
        rw [List.length_drop]
        conv_rhs => rw [(by omega : data.length = (data.length - fs) + fs)]
        rw [Nat.add_mod_right]
      have ihd := ih (data.drop fs) (by rw [List.length_drop]; omega)
        (by rw [hmodd]; exact hr)
      rw [List.getLast?_cons, ihd]
      simp only [Option.getD_some, Option.some.injEq]
      rw [hmodd, List.drop_drop, List.length_drop]
      have hdiv := Nat.div_add_mod data.length fs
      have hq : 1 ≤ data.length / fs := (Nat.one_le_div_iff hfs).mpr hfl.le
      have hmul : fs * 1 ≤ fs * (data.length / fs) :=
        Nat.mul_le_mul_left fs hq
      rw [Nat.mul_one] at hmul
      have hge : fs + data.length % fs ≤ data.length := by omega
      congr 2
      omega

lemma chunkPad_flatten_aux (fs : ℕ) (hfs : 0 < fs) :
    ∀ (n : ℕ) (data : List ℕ), data.length ≤ n → data.length % fs = 0 →
      (chunkPad fs data).flatten = data := by
  intro n
  induction n with
  | zero =>
    intro data hle _
    have hdata : data = [] := List.eq_nil_of_length_eq_zero (Nat.le_zero.mp hle)
    subst hdata
    rw [chunkPad_nil]
    rfl
  | succ n ih =>
    intro data hle hr
    by_cases hne : data = []
    · subst hne
      rw [chunkPad_nil]
      rfl
    · have hpos : 0 < data.length := List.length_pos.mpr hne
      have hfl : fs ≤ data.length :=
        Nat.le_of_dvd hpos (Nat.dvd_of_mod_eq_zero hr)
      have htake : (data.take fs).length = fs := by
        rw [List.length_take]
        omega
      rw [chunkPad_eq_cons fs data hne hfs.ne', List.flatten_cons, htake,
        Nat.sub_self, List.replicate_zero, List.append_nil]
      rw [ih (data.drop fs) (by rw [List.length_drop]; omega)
        (by
          rw [List.length_drop]
          calc (data.length - fs) % fs
              = (data.length - fs + fs) % fs := (Nat.add_mod_right _ _).symm
            _ = data.length % fs := by rw [Nat.sub_add_cancel hfl]
            _ = 0 := hr)]
      exact List.take_append_drop fs data

lemma bytes_to_frames_nil (W H : ℕ) :
    bytes_to_frames [] W H = [List.replicate (W * H * 3) 0] := by
  simp [bytes_to_frames, chunkPad_nil]

lemma chunkPad_ne_nil (fs : ℕ) (data : List ℕ) (hd : data ≠ []) (hfs : fs ≠ 0) :
    chunkPad fs data ≠ [] := by
  rw [chunkPad_eq_cons fs data hd hfs]
  exact List.cons_ne_nil _ _

lemma bytes_to_frames_of_ne_nil (data : List ℕ) (W H : ℕ) (hd : data ≠ [])
    (hfs : W * H * 3 ≠ 0) :
    bytes_to_frames data W H = chunkPad (W * H * 3) data := by
  simp only [bytes_to_frames]
  rw [if_neg (chunkPad_ne_nil _ _ hd hfs)]

lemma offset_recompose (W : ℕ) (b : ℕ) :
    (b / (W * 3)) * (W * 3) + ((b % (W * 3)) / 3) * 3 + b % 3 = b := by
  have h3 : (3:ℕ) ∣ W * 3 := ⟨W, by ring⟩
  have hm3 : b % 3 = (b % (W * 3)) % 3 := (Nat.mod_mod_of_dvd b h3).symm
  calc (b / (W * 3)) * (W * 3) + ((b % (W * 3)) / 3) * 3 + b % 3
      = (W * 3) * (b / (W * 3)) +
          (3 * ((b % (W * 3)) / 3) + (b % (W * 3)) % 3) := by rw [hm3]; ring
    _ = (W * 3) * (b / (W * 3)) + b % (W * 3) := by
        rw [Nat.div_add_mod (b % (W * 3)) 3]
    _ = b := Nat.div_add_mod b (W * 3)

/-- C1: for every byte payload and every positive width and height, the
frame sequence returned by `bytes_to_frames` has length exactly
`max 1 ⌈len / (W*H*3)⌉`, the ceiling written in natural-number division as
`(len + W*H*3 - 1) / (W*H*3)`. -/
theorem frame_count_law (data : List ℕ) (W H : ℕ) (hW : 0 < W) (hH : 0 < H) :
    (bytes_to_frames data W H).length =
      max 1 ((data.length + W * H * 3 - 1) / (W * H * 3)) := by
  have hfs : 0 < W * H * 3 := by positivity
  by_cases hd : data = []
  · subst hd
    rw [bytes_to_frames_nil]
    simp only [List.length_singleton, List.length_nil, Nat.zero_add]
    rw [Nat.div_eq_of_lt (by omega)]
    omega
  · rw [bytes_to_frames_of_ne_nil data W H hd hfs.ne',
      chunkPad_length _ _ hfs hd]
    have hpos : 0 < data.length := List.length_pos.mpr hd
    have hsplit : data.length + W * H * 3 - 1 = (data.length - 1) + W * H * 3 := by
      omega
    rw [hsplit, Nat.add_div_right _ hfs]
    exact (Nat.max_eq_right (Nat.succ_le_succ (Nat.zero_le _))).symm

theorem frame_count_law_witness :
    0 < 1 ∧ 0 < 1 ∧
      (bytes_to_frames [1, 2, 3, 4] 1 1).length =
        max 1 (((4:ℕ) + 1 * 1 * 3 - 1) / (1 * 1 * 3)) :=
  ⟨Nat.one_pos, Nat.one_pos, frame_count_law [1, 2, 3, 4] 1 1 Nat.one_pos Nat.one_pos⟩

/-- C2: byte offset `b` inside the `i`-th `frame_size`-byte chunk of the
payload appears in frame `i` at row `b / (W*3)`, column `(b % (W*3)) / 3`,
channel `b % 3` (R,G,B order in the flat layout); the chunks are the
consecutive non-overlapping slices of the payload in original byte order,
i.e. the byte read is payload byte `i * frame_size + b` (zero when that
offset lies in the zero padding); and encoding the same payload at the same
resolution twice yields identical frame sequences. -/
theorem byte_to_pixel_mapping (data : List ℕ) (W H : ℕ) (hW : 0 < W) (hH : 0 < H)
    (i b : ℕ) (hb : b < W * H * 3) :
    (framePixel ((bytes_to_frames data W H).getD i []) W
        (b / (W * 3)) ((b % (W * 3)) / 3) (b % 3)
      = data.getD (i * (W * H * 3) + b) 0)
    ∧ bytes_to_frames data W H = bytes_to_frames data W H := by
  refine ⟨?_, rfl⟩
  unfold framePixel
  rw [offset_recompose]
  by_cases hd : data = []
  · subst hd
    rw [bytes_to_frames_nil]
    cases i with
    | zero =>
      simp [List.getD_eq_getElem?_getD, List.getElem?_replicate, hb]
    | succ j =>
      simp [List.getD]
  · rw [bytes_to_frames_of_ne_nil data W H hd (by positivity)]
    exact chunkPad_getD _ _ (by positivity) i b hb

theorem byte_to_pixel_mapping_witness :
    0 < 1 ∧ 0 < 1 ∧ (1:ℕ) < 1 * 1 * 3 ∧
      ((framePixel ((bytes_to_frames [7, 8] 1 1).getD 0 []) 1
          (1 / (1 * 3)) ((1 % (1 * 3)) / 3) (1 % 3)
        = ([7, 8] : List ℕ).getD (0 * (1 * 1 * 3) + 1) 0)
      ∧ bytes_to_frames [7, 8] 1 1 = bytes_to_frames [7, 8] 1 1) := by
  refine ⟨Nat.one_pos, Nat.one_pos, by norm_num, ?_⟩
  exact byte_to_pixel_mapping [7, 8] 1 1 Nat.one_pos Nat.one_pos 0 1 (by norm_num)

/-- C3: for every positive width and height, encoding the empty payload
yields exactly one frame (never zero frames) and every byte of that frame
is zero. -/
theorem empty_input_law (W H : ℕ) (hW : 0 < W) (hH : 0 < H) :
    (bytes_to_frames [] W H).length = 1 ∧
      ∀ frame ∈ bytes_to_frames [] W H, ∀ byte ∈ frame, byte = 0 := by
  rw [bytes_to_frames_nil]
  refine ⟨rfl, ?_⟩
  intro frame hf byte hbyte
  rw [List.mem_singleton] at hf
  subst hf
  exact List.eq_of_mem_replicate hbyte

theorem empty_input_law_witness :
    0 < 2 ∧ 0 < 3 ∧
      ((bytes_to_frames [] 2 3).length = 1 ∧
        ∀ frame ∈ bytes_to_frames [] 2 3, ∀ byte ∈ frame, byte = 0) :=
  ⟨by norm_num, by norm_num, empty_input_law 2 3 (by norm_num) (by norm_num)⟩

/-- C4: if the payload length leaves remainder `r ≠ 0` modulo
`frame_size = W*H*3`, the last frame is the final `r` payload bytes
followed by `frame_size - r` zero bytes; and if the payload is a nonzero
exact multiple of `frame_size`, concatenating all frames gives back exactly
the payload (no padding byte anywhere). -/
theorem padding_laws (data : List ℕ) (W H : ℕ) (hW : 0 < W) (hH : 0 < H) :
    (∀ r, data.length % (W * H * 3) = r → r ≠ 0 →
        (bytes_to_frames data W H).getLast? =
          some (data.drop (data.length - r) ++ List.replicate (W * H * 3 - r) 0))
    ∧ (0 < data.length → data.length % (W * H * 3) = 0 →
        (bytes_to_frames data W H).flatten = data) := by
  have hfs : 0 < W * H * 3 := by positivity
  constructor
  · intro r hreq hrne
    subst hreq
    have hd : data ≠ [] := by
      intro hcon
      subst hcon
      simp at hrne
    rw [bytes_to_frames_of_ne_nil data W H hd hfs.ne']
    exact chunkPad_getLast?_aux _ hfs data.length data le_rfl hrne
  · intro hpos hmod
    have hd : data ≠ [] := by
      intro hcon
      subst hcon
      simp at hpos
    rw [bytes_to_frames_of_ne_nil data W H hd hfs.ne']
    exact chunkPad_flatten_aux _ hfs data.length data le_rfl hmod

theorem padding_laws_witness :
    0 < 1 ∧ 0 < 1 ∧
      ((bytes_to_frames [5, 6, 7, 8] 1 1).getLast? =
          some (([5, 6, 7, 8] : List ℕ).drop (4 - 1) ++ List.replicate (1 * 1 * 3 - 1) 0))
    ∧ (bytes_to_frames [5, 6, 7] 1 1).flatten = [5, 6, 7] := by
  refine ⟨Nat.one_pos, Nat.one_pos, ?_, ?_⟩
  · exact (padding_laws [5, 6, 7, 8] 1 1 Nat.one_pos Nat.one_pos).1 1
      (by norm_num) (by norm_num)
  · exact (padding_laws [5, 6, 7] 1 1 Nat.one_pos Nat.one_pos).2
      (by norm_num) (by norm_num)

lemma scaleFrame_length (f : List ℕ) (W H s : ℕ) :
    (scaleFrame f W H s).length = H * s * (W * s * 3) := by
  unfold scaleFrame
  rw [List.length_map, List.length_range]

lemma scaleFrame_pixel (f : List ℕ) (W H s r c ch : ℕ) (hr : r < H * s)
    (hc : c < W * s) (hch : ch < 3) :
    framePixel (scaleFrame f W H s) (W * s) r c ch
      = framePixel f W (r / s) (c / s) ch := by
  have hWs3 : 0 < W * s * 3 := by
    have hW : 0 < W * s := Nat.lt_of_le_of_lt (Nat.zero_le c) hc
    omega
  have hrest : c * 3 + ch < W * s * 3 := by
    have : c + 1 ≤ W * s := hc
    calc c * 3 + ch < c * 3 + 3 := by omega
      _ = (c + 1) * 3 := by ring
      _ ≤ W * s * 3 := Nat.mul_le_mul_right 3 hc
  have hidx : r * (W * s * 3) + c * 3 + ch < H * s * (W * s * 3) := by
    calc r * (W * s * 3) + c * 3 + ch
        < r * (W * s * 3) + W * s * 3 := by omega
      _ = (r + 1) * (W * s * 3) := by ring
      _ ≤ H * s * (W * s * 3) := Nat.mul_le_mul_right _ hr
  conv_lhs => rw [framePixel, scaleFrame]
  rw [List.getD_eq_getElem?_getD, List.getElem?_map, List.getElem?_range hidx]
  simp only [Option.map_some', Option.getD_some]
  have hdiv : (r * (W * s * 3) + c * 3 + ch) / (W * s * 3) = r := by
    rw [Nat.add_assoc, Nat.mul_comm r (W * s * 3), Nat.mul_add_div hWs3,
      Nat.div_eq_of_lt hrest, Nat.add_zero]
  have hmod : (r * (W * s * 3) + c * 3 + ch) % (W * s * 3) = c * 3 + ch := by
    rw [Nat.add_assoc, Nat.mul_comm r (W * s * 3), Nat.mul_add_mod,
      Nat.mod_eq_of_lt hrest]
  have hcol : (c * 3 + ch) / 3 = c := by
    rw [Nat.mul_comm c 3, Nat.mul_add_div (by norm_num), Nat.div_eq_of_lt hch,
      Nat.add_zero]
  have hch3 : (r * (W * s * 3) + c * 3 + ch) % 3 = ch := by
    have h1 : r * (W * s * 3) + c * 3 + ch
        = 3 * (r * (W * s) + c) + ch := by ring
    rw [h1, Nat.mul_add_mod, Nat.mod_eq_of_lt hch]
  rw [hdiv, hmod, hcol, hch3]

/-- C6: for every frame of the encoder's resolution and every integer
factor `s ≥ 1`, the pixel-scaling step yields frames of dimensions
`(W*s) × (H*s)` with channel depth 3 unchanged, in which every output
pixel `(r, c)` equals source pixel `(r / s, c / s)` on all channels, and
factor 1 returns the input frame list exactly (identity). -/
theorem pixel_scale_law (frames : List (List ℕ)) (W H s : ℕ) (hs : 1 ≤ s)
    (hlen : ∀ f ∈ frames, f.length = W * H * 3) :
    ((applyPixelScale frames W H s).length = frames.length)
    ∧ (∀ g ∈ applyPixelScale frames W H s, g.length = (W * s) * (H * s) * 3)
    ∧ (∀ i r c ch, r < H * s → c < W * s → ch < 3 →
        framePixel ((applyPixelScale frames W H s).getD i []) (W * s) r c ch
          = framePixel (frames.getD i []) W (r / s) (c / s) ch)
    ∧ (s = 1 → applyPixelScale frames W H s = frames) := by
  rcases Nat.lt_or_ge 1 s with hs1 | hs1
  · have happ : applyPixelScale frames W H s
        = frames.map fun f => scaleFrame f W H s := by
      unfold applyPixelScale
      rw [if_pos hs1]
    refine ⟨?_, ?_, ?_, ?_⟩
    · rw [happ, List.length_map]
    · intro g hg
      rw [happ, List.mem_map] at hg
      obtain ⟨f, _, rfl⟩ := hg
      rw [scaleFrame_length]
      ring
    · intro i r c ch hrr hcc hchh
      rw [happ, List.getD_eq_getElem?_getD, List.getElem?_map]
      rcases hi : frames[i]? with _ | f
      · rw [List.getD_eq_getElem?_getD, hi]
        simp only [Option.map_none', Option.getD_none]
        unfold framePixel
        simp [List.getD]
      · rw [List.getD_eq_getElem?_getD, hi]
        simp only [Option.map_some', Option.getD_some]
        exact scaleFrame_pixel f W H s r c ch hrr hcc hchh
    · intro hcon
      omega
  · have hseq : s = 1 := by omega
    subst hseq
    have happ : applyPixelScale frames W H 1 = frames := by
      unfold applyPixelScale
      rw [if_neg (by omega)]
    refine ⟨by rw [happ], ?_, ?_, fun _ => happ⟩
    · intro g hg
      rw [happ] at hg
      rw [hlen g hg]
      ring
    · intro i r c ch hrr hcc hchh
      rw [happ, Nat.mul_one, Nat.div_one, Nat.div_one]

theorem pixel_scale_law_witness :
    1 ≤ 2 ∧ (∀ f ∈ [[1, 2, 3]], List.length f = 1 * 1 * 3) ∧
      (((applyPixelScale [[1, 2, 3]] 1 1 2).length = ([[1, 2, 3]] : List (List ℕ)).length)
      ∧ (∀ g ∈ applyPixelScale [[1, 2, 3]] 1 1 2, g.length = (1 * 2) * (1 * 2) * 3)
      ∧ (∀ i r c ch, r < 1 * 2 → c < 1 * 2 → ch < 3 →
          framePixel ((applyPixelScale [[1, 2, 3]] 1 1 2).getD i []) (1 * 2) r c ch
            = framePixel (([[1, 2, 3]] : List (List ℕ)).getD i []) 1 (r / 2) (c / 2) ch)
      ∧ ((2 : ℕ) = 1 → applyPixelScale [[1, 2, 3]] 1 1 2 = [[1, 2, 3]])) := by
  refine ⟨by norm_num, by simp, ?_⟩
  exact pixel_scale_law [[1, 2, 3]] 1 1 2 (by norm_num) (by simp)

lemma current_resolution_nine_sixteen :
    current_resolution "9:16" 512 = (512, 910) := by
  have ha : aspectRatios "9:16" = (9, 16) := rfl
  have hfl : ⌊(8192 / 9 : ℚ)⌋ = 910 := by norm_num [Int.floor_eq_iff]
  have hround : pyRound (8192 / 9) = 910 := by
    unfold pyRound
    rw [hfl]
    norm_num
  simp only [current_resolution, ha]
  norm_num [hround]
  rfl

/-- C5 counterexample: the resolution model maps ("9:16", 512) to height
910, because round(512 * 16 / 9) = round(910.22…) = 910, not the 911 the
claim states. -/
theorem resolution_law_counterexample :
    current_resolution "9:16" 512 = (512, 910) ∧
      current_resolution "9:16" 512 ≠ (512, 911) := by
  refine ⟨current_resolution_nine_sixteen, ?_⟩
  rw [current_resolution_nine_sixteen]
  intro hcon
  exact absurd (congrArg Prod.snd hcon) (by norm_num)

/-- C5 (amended): the resolution model computes
`height = max(1, round(base_width * ratio_h / ratio_w))`, unknown
aspect-ratio names fall back to 1:1, and in particular
resolve("16:9", 512) = (512, 288), resolve("1:1", 256) = (256, 256), and
resolve("9:16", 512) = (512, 910). -/
theorem resolution_law (name : String) (base : ℕ) :
    ((current_resolution name base).1 = base
      ∧ (current_resolution name base).2
          = max 1 (pyRound ((base : ℚ) *
              (((aspectRatios name).2 : ℚ) / ((aspectRatios name).1 : ℚ)))).toNat)
    ∧ (¬(name = "1:1" ∨ name = "4:3" ∨ name = "16:9" ∨ name = "9:16") →
        current_resolution name base = current_resolution "1:1" base)
    ∧ current_resolution "16:9" 512 = (512, 288)
    ∧ current_resolution "1:1" 256 = (256, 256)
    ∧ current_resolution "9:16" 512 = (512, 910) := by
  refine ⟨⟨rfl, rfl⟩, ?_, ?_, ?_, current_resolution_nine_sixteen⟩
  · intro hunk
    push_neg at hunk
    obtain ⟨h1, h2, h3, h4⟩ := hunk
    have ha : aspectRatios name = (1, 1) := by
      simp only [aspectRatios, if_neg h1, if_neg h2, if_neg h3, if_neg h4]
    have hb : aspectRatios "1:1" = (1, 1) := rfl
    simp only [current_resolution, ha, hb]
  · have ha : aspectRatios "16:9" = (16, 9) := rfl
    have hround : pyRound 288 = 288 := by
      unfold pyRound
      norm_num
    simp only [current_resolution, ha]
    norm_num [hround]
    rfl
  · have ha : aspectRatios "1:1" = (1, 1) := rfl
    have hround : pyRound 256 = 256 := by
      unfold pyRound
      norm_num
    simp only [current_resolution, ha]
    norm_num [hround]
    rfl

theorem resolution_law_witness :
    ¬(("x:y" : String) = "1:1" ∨ ("x:y" : String) = "4:3"
        ∨ ("x:y" : String) = "16:9" ∨ ("x:y" : String) = "9:16")
      ∧ current_resolution "x:y" 512 = current_resolution "1:1" 512 :=
  ⟨by decide, (resolution_law "x:y" 512).2.1 (by decide)⟩

/-- C7 counterexample: a configured fps string that parses to the
non-positive number -5 is clamped to 0.01 by `_current_fps`, not replaced
by the default `FPS = 1` that the claim requires for non-positive values. -/
theorem fps_fallback_counterexample :
    current_fps (some (-5)) = 1 / 100 ∧ current_fps (some (-5)) ≠ FPS := by
  have hmax : current_fps (some (-5)) = 1 / 100 := by
    simp only [current_fps]
    rw [max_eq_left (by norm_num)]
  refine ⟨hmax, ?_⟩
  rw [hmax]
  norm_num [FPS]

/-- C7 (amended): a non-numeric fps string falls back to the fixed default
`FPS`; a string that parses to the number `v` — positive or not — is
clamped to `max(0.01, v)`.  Consequently the effective fps is always at
least 0.01, strictly positive, and the estimated duration
`frames / fps` is a division by a strictly positive number (and itself
strictly positive for a nonzero frame count). -/
theorem fps_clamp_law (p : Option ℚ) :
    current_fps none = FPS
    ∧ (∀ v : ℚ, current_fps (some v) = max (1 / 100) v)
    ∧ 1 / 100 ≤ current_fps p
    ∧ 0 < current_fps p
    ∧ (∀ n : ℕ, 0 < n → 0 < estimatedSeconds n (current_fps p)) := by
  have hle : 1 / 100 ≤ current_fps p := by
    rcases p with _ | v
    · norm_num [current_fps, FPS]
    · exact le_max_left _ _
  have hpos : 0 < current_fps p := lt_of_lt_of_le (by norm_num) hle
  refine ⟨rfl, fun v => rfl, hle, hpos, ?_⟩
  intro n hn
  exact div_pos (by exact_mod_cast hn) hpos

theorem fps_clamp_law_witness :
    0 < 4 ∧ 0 < estimatedSeconds 4 (current_fps none) :=
  ⟨by norm_num, (fps_clamp_law none).2.2.2.2 4 (by norm_num)⟩

lemma appDropStep_open (paths : List (List Char)) (cur : List Char) (b : Bool) :
    appDropStep (paths, cur, b) '\x7b' = (paths, [], true) := rfl

lemma appDropStep_close (paths : List (List Char)) (cur : List Char) (b : Bool)
    (hcur : cur ≠ []) :
    appDropStep (paths, cur, b) '\x7d' = (paths ++ [cur], [], false) := by
  simp [appDropStep, hcur]

lemma appDropStep_close_nil (paths : List (List Char)) (b : Bool) :
    appDropStep (paths, ([] : List Char), b) '\x7d' = (paths, [], false) := by
  simp [appDropStep]

lemma appDropStep_space_flush (paths : List (List Char)) (cur : List Char)
    (hcur : cur ≠ []) :
    appDropStep (paths, cur, false) ' ' = (paths ++ [cur], [], false) := by
  simp [appDropStep, hcur]

lemma appDropStep_space_skip (paths : List (List Char)) :
    appDropStep (paths, ([] : List Char), false) ' ' = (paths, [], false) := by
  simp [appDropStep]

lemma appDropStep_other (paths : List (List Char)) (cur : List Char) (b : Bool)
    (ch : Char) (h1 : ch ≠ '\x7b') (h2 : ch ≠ '\x7d')
    (h3 : ¬(ch = ' ' ∧ b = false)) :
    appDropStep (paths, cur, b) ch = (paths, cur ++ [ch], b) := by
  simp only [appDropStep]
  rw [if_neg h1, if_neg h2, if_neg h3]

lemma ne_space_of_not_space {c : Char} (h : pyIsSpace c = false) : c ≠ ' ' := by
  intro hcon
  subst hcon
  simp [pyIsSpace] at h

lemma foldl_no_special (s : List Char)
    (h : ∀ c ∈ s, c ≠ '\x7b' ∧ c ≠ '\x7d' ∧ c ≠ ' ') :
    ∀ (paths : List (List Char)) (cur : List Char),
      s.foldl appDropStep (paths, cur, false) = (paths, cur ++ s, false) := by
  induction s with
  | nil =>
    intro paths cur
    simp
  | cons c cs ih =>
    intro paths cur
    obtain ⟨h1, h2, h3⟩ := h c (List.mem_cons_self c cs)
    rw [List.foldl_cons,
      appDropStep_other paths cur false c h1 h2 (fun hcon => h3 hcon.1),
      ih (fun d hd => h d (List.mem_cons_of_mem c hd)) paths (cur ++ [c])]
    simp

lemma foldl_in_brace (s : List Char)
    (h : ∀ c ∈ s, c ≠ '\x7b' ∧ c ≠ '\x7d') :
    ∀ (paths : List (List Char)) (cur : List Char),
      s.foldl appDropStep (paths, cur, true) = (paths, cur ++ s, true) := by
  induction s with
  | nil =>
    intro paths cur
    simp
  | cons c cs ih =>
    intro paths cur
    obtain ⟨h1, h2⟩ := h c (List.mem_cons_self c cs)
    rw [List.foldl_cons,
      appDropStep_other paths cur true c h1 h2
        (fun hcon => absurd hcon.2 (by decide)),
      ih (fun d hd => h d (List.mem_cons_of_mem c hd)) paths (cur ++ [c])]
    simp

lemma foldl_plain (s : List Char) (h : goodToken (DropToken.plain s))
    (paths : List (List Char)) :
    (renderToken (DropToken.plain s)).foldl appDropStep (paths, [], false)
      = (paths, s, false) := by
  have hchars : ∀ c ∈ s, c ≠ '\x7b' ∧ c ≠ '\x7d' ∧ c ≠ ' ' := by
    intro c hc
    obtain ⟨hb1, hb2, hsp⟩ := h.2 c hc
    exact ⟨hb1, hb2, ne_space_of_not_space hsp⟩
  show s.foldl appDropStep (paths, [], false) = (paths, s, false)
  rw [foldl_no_special s hchars paths []]
  simp

lemma foldl_braced (s : List Char) (h : goodToken (DropToken.braced s))
    (paths : List (List Char)) :
    (renderToken (DropToken.braced s)).foldl appDropStep (paths, [], false)
      = (paths ++ [s], [], false) := by
  have hchars : ∀ c ∈ s, c ≠ '\x7b' ∧ c ≠ '\x7d' := by
    intro c hc
    obtain ⟨hb1, hb2, _⟩ := h.2 c hc
    exact ⟨hb1, hb2⟩
  show (('\x7b' :: (s ++ ['\x7d'])).foldl appDropStep (paths, [], false))
      = (paths ++ [s], [], false)
  rw [List.foldl_cons, appDropStep_open, List.foldl_append,
    foldl_in_brace s hchars paths []]
  simp only [List.nil_append, List.foldl_cons, List.foldl_nil]
  rw [appDropStep_close paths s true h.1]

lemma renderTokens_nil : renderTokens [] = [] := rfl

lemma renderTokens_single (t : DropToken) : renderTokens [t] = renderToken t := rfl

lemma renderTokens_cons_cons (t t2 : DropToken) (ts : List DropToken) :
    renderTokens (t :: t2 :: ts) = renderToken t ++ ' ' :: renderTokens (t2 :: ts) :=
  rfl

lemma tokens_fold (toks : List DropToken) :
    (∀ t ∈ toks, goodToken t) → ∀ paths : List (List Char),
      (((renderTokens toks).foldl appDropStep (paths, [], false)).1
        ++ (if ((renderTokens toks).foldl appDropStep (paths, [], false)).2.1 = []
            then []
            else [((renderTokens toks).foldl appDropStep (paths, [], false)).2.1]))
        = paths ++ toks.map tokenContent := by
  induction toks with
  | nil =>
    intro _ paths
    simp [renderTokens_nil]
  | cons t ts ih =>
    intro h paths
    have hgt : goodToken t := h t (List.mem_cons_self t ts)
    have hgts : ∀ x ∈ ts, goodToken x := fun x hx => h x (List.mem_cons_of_mem t hx)
    cases ts with
    | nil =>
      cases t with
      | plain s =>
        rw [renderTokens_single, foldl_plain s hgt paths]
        simp [tokenContent, hgt.1]
      | braced s =>
        rw [renderTokens_single, foldl_braced s hgt paths]
        simp [tokenContent]
    | cons t2 ts2 =>
      have hne : tokenContent t ≠ [] := by
        cases t with
        | plain s => exact hgt.1
        | braced s => exact hgt.1
      have hspace : (' ' :: renderTokens (t2 :: ts2)).foldl appDropStep
            ((renderToken t).foldl appDropStep (paths, [], false))
          = (renderTokens (t2 :: ts2)).foldl appDropStep
              (paths ++ [tokenContent t], [], false) := by
        cases t with
        | plain s =>
          rw [foldl_plain s hgt paths, List.foldl_cons,
            appDropStep_space_flush paths s hne]
          rfl
        | braced s =>
          rw [foldl_braced s hgt paths, List.foldl_cons, appDropStep_space_skip]
          rfl
      rw [renderTokens_cons_cons, List.foldl_append, hspace,
        ih hgts (paths ++ [tokenContent t])]
      simp
lemma renderToken_ne_nil (t : DropToken) (h : goodToken t) :
    renderToken t ≠ [] := by
  cases t with
  | plain s => exact h.1
  | braced s => exact List.cons_ne_nil _ _

lemma renderTokens_ne_nil (t : DropToken) (ts : List DropToken)
    (h : goodToken t) : renderTokens (t :: ts) ≠ [] := by
  cases ts with
  | nil =>
    rw [renderTokens_single]
    exact renderToken_ne_nil t h
  | cons t2 ts2 =>
    rw [renderTokens_cons_cons]
    intro hcon
    rcases List.append_eq_nil.mp hcon with ⟨_, h2⟩
    exact List.cons_ne_nil _ _ h2

lemma renderToken_head_not_space (t : DropToken) (h : goodToken t) :
    ∀ c, (renderToken t).head? = some c → pyIsSpace c = false := by
  intro c hc
  cases t with
  | plain s =>
    have hmem : c ∈ s := List.mem_of_mem_head? hc
    exact (h.2 c hmem).2.2
  | braced s =>
    have h2 : renderToken (DropToken.braced s) = '\x7b' :: (s ++ ['\x7d']) := rfl
    rw [h2, List.head?_cons] at hc
    cases hc
    decide

lemma renderTokens_head_not_space (toks : List DropToken)
    (h : ∀ t ∈ toks, goodToken t) :
    ∀ c, (renderTokens toks).head? = some c → pyIsSpace c = false := by
  cases toks with
  | nil =>
    intro c hc
    simp [renderTokens_nil] at hc
  | cons t ts =>
    have hgt : goodToken t := h t (List.mem_cons_self t ts)
    intro c hc
    cases ts with
    | nil =>
      rw [renderTokens_single] at hc
      exact renderToken_head_not_space t hgt c hc
    | cons t2 ts2 =>
      rcases hren : renderToken t with _ | ⟨a, as⟩
      · exact absurd hren (renderToken_ne_nil t hgt)
      · rw [renderTokens_cons_cons, hren, List.cons_append, List.head?_cons] at hc
        cases hc
        exact renderToken_head_not_space t hgt c (by rw [hren]; rfl)

lemma renderTokens_getLast_not_space (toks : List DropToken)
    (h : ∀ t ∈ toks, goodToken t) :
    ∀ c, (renderTokens toks).getLast? = some c → pyIsSpace c = false := by
  induction toks with
  | nil =>
    intro c hc
    simp [renderTokens_nil] at hc
  | cons t ts ih =>
    have hgt : goodToken t := h t (List.mem_cons_self t ts)
    have hgts : ∀ x ∈ ts, goodToken x := fun x hx => h x (List.mem_cons_of_mem t hx)
    intro c hc
    cases ts with
    | nil =>
      rw [renderTokens_single] at hc
      cases t with
      | plain s =>
        have hmem : c ∈ s := List.mem_of_mem_getLast? hc
        exact (hgt.2 c hmem).2.2
      | braced s =>
        have h2 : renderToken (DropToken.braced s) = ('\x7b' :: s) ++ ['\x7d'] := by
          simp [renderToken]
        rw [h2, List.getLast?_concat] at hc
        cases hc
        decide
    | cons t2 ts2 =>
      have hne : renderTokens (t2 :: ts2) ≠ [] :=
        renderTokens_ne_nil t2 ts2 (hgts t2 (List.mem_cons_self t2 ts2))
      rw [renderTokens_cons_cons,
        List.getLast?_append_of_ne_nil _ (List.cons_ne_nil _ _),
        show (' ' :: renderTokens (t2 :: ts2))
            = [' '] ++ renderTokens (t2 :: ts2) from rfl,
        List.getLast?_append_of_ne_nil _ hne] at hc
      exact ih hgts c hc

lemma dropWhile_id_of_head (l : List Char)
    (h : ∀ c, l.head? = some c → pyIsSpace c = false) :
    l.dropWhile pyIsSpace = l := by
  cases l with
  | nil => rfl
  | cons a as =>
    rw [List.dropWhile_cons, h a rfl]
    simp

lemma pyStrip_render (toks : List DropToken) (h : ∀ t ∈ toks, goodToken t) :
    pyStrip (renderTokens toks) = renderTokens toks := by
  cases toks with
  | nil => rfl
  | cons t ts =>
    unfold pyStrip
    rw [dropWhile_id_of_head _ (renderTokens_head_not_space (t :: ts) h),
      dropWhile_id_of_head _ (by
        intro c hc
        rw [List.head?_reverse] at hc
        exact renderTokens_getLast_not_space (t :: ts) h c hc),
      List.reverse_reverse]
lemma foldl_paths_ne_nil :
    ∀ (l : List Char) (paths : List (List Char)) (cur : List Char) (b : Bool),
      (∀ p ∈ paths, p ≠ []) →
      ∀ p ∈ (l.foldl appDropStep (paths, cur, b)).1, p ≠ [] := by
  intro l
  induction l with
  | nil =>
    intro paths cur b hp
    exact hp
  | cons c cs ih =>
    intro paths cur b hp
    rw [List.foldl_cons]
    have hflush : ∀ q : List Char, q ≠ [] → ∀ p ∈ paths ++ [q], p ≠ [] := by
      intro q hq p hpm
      rcases List.mem_append.mp hpm with hm | hm
      · exact hp p hm
      · rw [List.mem_singleton] at hm
        subst hm
        exact hq
    by_cases h1 : c = '\x7b'
    · subst h1
      rw [appDropStep_open]
      exact ih paths [] true hp
    by_cases h2 : c = '\x7d'
    · subst h2
      by_cases hcur : cur = []
      · subst hcur
        rw [appDropStep_close_nil]
        exact ih paths [] false hp
      · rw [appDropStep_close paths cur b hcur]
        exact ih (paths ++ [cur]) [] false (hflush cur hcur)
    by_cases h3 : c = ' ' ∧ b = false
    · obtain ⟨rfl, rfl⟩ := h3
      by_cases hcur : cur = []
      · subst hcur
        rw [appDropStep_space_skip]
        exact ih paths [] false hp
      · rw [appDropStep_space_flush paths cur hcur]
        exact ih (paths ++ [cur]) [] false (hflush cur hcur)
    · rw [appDropStep_other paths cur b c h1 h2 h3]
      exact ih paths (cur ++ [c]) b hp

lemma appOnDropTokens_mem_ne_nil (raw : List Char) :
    ∀ p ∈ appOnDropTokens raw, p ≠ [] := by
  intro p hp
  simp only [appOnDropTokens] at hp
  rcases List.mem_append.mp hp with hm | hm
  · exact foldl_paths_ne_nil (pyStrip raw) [] [] false (by simp) p hm
  · by_cases hcur :
        ((pyStrip raw).foldl appDropStep ([], [], false)).2.1 = []
    · rw [if_pos hcur] at hm
      simp at hm
    · rw [if_neg hcur] at hm
      rw [List.mem_singleton] at hm
      subst hm
      exact hcur

theorem drop_parse_law :
    (∀ toks : List DropToken, (∀ t ∈ toks, goodToken t) →
        appOnDropTokens (renderTokens toks) = toks.map tokenContent)
    ∧ (∀ (old : Option (List Char)) (raw : List Char),
        (appOnDropTokens raw = [] → appOnDropSelect old raw = old)
        ∧ (appOnDropTokens raw ≠ [] →
            appOnDropSelect old raw = some ((appOnDropTokens raw).headD []))) := by
  constructor
  · intro toks h
    simp only [appOnDropTokens]
    rw [pyStrip_render toks h, tokens_fold toks h []]
    simp
  · intro old raw
    constructor
    · intro h0
      simp [appOnDropSelect, h0]
    · intro hne
      rcases hlist : appOnDropTokens raw with _ | ⟨p, rest⟩
      · exact absurd hlist hne
      · have hpne : p ≠ [] := appOnDropTokens_mem_ne_nil raw p
          (by rw [hlist]; exact List.mem_cons_self p rest)
        simp only [appOnDropSelect, hlist, List.headD_cons]
        rw [if_neg hpne]

theorem drop_parse_law_witness :
    (∀ t ∈ [DropToken.braced ['a', ' ', 'b'], DropToken.plain ['c']], goodToken t)
    ∧ appOnDropTokens
        (renderTokens [DropToken.braced ['a', ' ', 'b'], DropToken.plain ['c']])
        = [['a', ' ', 'b'], ['c']]
    ∧ appOnDropTokens ['\x7b', '\x7d'] = []
    ∧ appOnDropSelect (some ['z']) ['\x7b', '\x7d'] = some ['z'] := by
  have hgood : ∀ t ∈ [DropToken.braced ['a', ' ', 'b'], DropToken.plain ['c']],
      goodToken t := by
    intro t ht
    simp only [List.mem_cons, List.not_mem_nil, or_false] at ht
    rcases ht with rfl | rfl
    · exact ⟨by decide, by decide⟩
    · exact ⟨by decide, by decide⟩
  refine ⟨hgood, ?_, rfl, ?_⟩
  · exact (drop_parse_law.1 _ hgood).trans (by rfl)
  · exact (drop_parse_law.2 (some ['z']) ['\x7b', '\x7d']).1 rfl

theorem parsers_agree (raw : List Char) :
    appOnDropTokens raw = parse_drop_paths raw := by
  have hstep : appDropStep = tomatoDropStep := by
    funext st ch
    rfl
  simp only [appOnDropTokens, parse_drop_paths, hstep]

theorem brace_reset_law :
    (∀ (paths : List (List Char)) (cur : List Char) (b : Bool),
        appDropStep (paths, cur, b) '\x7b' = (paths, [], true)
        ∧ tomatoDropStep (paths, cur, b) '\x7b' = (paths, [], true))
    ∧ appOnDropTokens ['a', 'b', '\x7b', 'c', 'd', ' ', 'e', 'f', '\x7d']
        = [['c', 'd', ' ', 'e', 'f']]
    ∧ appOnDropTokens ['a', 'b', '\x7b', 'c', 'd', ' ', 'e', 'f', '\x7d']
        ≠ [['a', 'b', 'c', 'd', ' ', 'e', 'f']]
    ∧ parse_drop_paths ['a', 'b', '\x7b', 'c', 'd', ' ', 'e', 'f', '\x7d']
        = [['c', 'd', ' ', 'e', 'f']]
    ∧ appOnDropTokens ['x', ' ', '\x7b', '\x7d', ' ', 'y'] = [['x'], ['y']]
    ∧ appOnDropTokens ['\x7b', '\x7d'] = []
    ∧ parse_drop_paths ['\x7b', '\x7d'] = [] := by
  refine ⟨fun paths cur b => ⟨rfl, rfl⟩, rfl, ?_, rfl, rfl, rfl, rfl⟩
  intro hcon
  rw [show appOnDropTokens ['a', 'b', '\x7b', 'c', 'd', ' ', 'e', 'f', '\x7d']
        = [['c', 'd', ' ', 'e', 'f']] from rfl] at hcon
  exact absurd hcon (by decide)

end DataToVideo
